import Mathlib

/-!
Shallow embedding of `restrand-fasta` (src/src/main.rs) and proofs about its
orientation-resolution, strand-normalization and emission logic.

Sequences, quality strings and diagnostic messages are modelled as `List Char`
(the program works on ASCII byte strings), identifiers and headers as `String`.
-/

namespace Restrand

/-- Conventional FASTA wrap width (`FASTA_WRAP_WIDTH` in main.rs). -/
def FASTA_WRAP_WIDTH : Nat := 60

/-- Watson-Crick complement of a single character, as implemented by
`bio::alphabets::dna::complement` (the dependency used at main.rs:199 and
main.rs:290): the symmetric IUPAC table `AGCTYRWSKMDVHBN ↔ TCGARYWSMKHBDVN`,
duplicated for lower case, identity on every other byte. -/
def complement (c : Char) : Char :=
  match c with
  | 'A' => 'T' | 'G' => 'C' | 'C' => 'G' | 'T' => 'A'
  | 'Y' => 'R' | 'R' => 'Y' | 'W' => 'W' | 'S' => 'S'
  | 'K' => 'M' | 'M' => 'K' | 'D' => 'H' | 'V' => 'B'
  | 'H' => 'D' | 'B' => 'V' | 'N' => 'N'
  | 'a' => 't' | 'g' => 'c' | 'c' => 'g' | 't' => 'a'
  | 'y' => 'r' | 'r' => 'y' | 'w' => 'w' | 's' => 's'
  | 'k' => 'm' | 'm' => 'k' | 'd' => 'h' | 'v' => 'b'
  | 'h' => 'd' | 'b' => 'v' | 'n' => 'n'
  | other => other

/-- `bio::alphabets::dna::revcomp`: reverse the sequence and complement each
character. -/
def revcomp (s : List Char) : List Char :=
  s.reverse.map complement

/-- ASCII lower-casing of one character (`u8::to_ascii_lowercase`). -/
def toAsciiLower (c : Char) : Char :=
  if 'A' ≤ c ∧ c ≤ 'Z' then Char.ofNat (c.toNat + 32) else c

/-- `str::trim`: drop whitespace from both ends (modelled with ASCII
whitespace, which covers every character the program is given). -/
def trimList (s : List Char) : List Char :=
  ((s.dropWhile Char.isWhitespace).reverse.dropWhile Char.isWhitespace).reverse

/-- Fuel-indexed worker for `wrapLines`; with fuel at least the length of the
list it peels off `FASTA_WRAP_WIDTH` characters per step. -/
def wrapLinesFuel : Nat → List Char → List (List Char)
  | _, [] => []
  | 0, _ :: _ => []
  | Nat.succ n, c :: t =>
    (c :: t).take FASTA_WRAP_WIDTH :: wrapLinesFuel n ((c :: t).drop FASTA_WRAP_WIDTH)

/-- The FASTA line wrapper (`wrap_and_write`, main.rs:153-159): the list of
lines produced by `seq.chunks(FASTA_WRAP_WIDTH)`; an empty sequence yields no
lines. -/
def wrapLines (s : List Char) : List (List Char) :=
  wrapLinesFuel s.length s

theorem wrapLinesFuel_congr : ∀ (n m : Nat) (l : List Char), l.length ≤ n →
    l.length ≤ m → wrapLinesFuel n l = wrapLinesFuel m l := by
  intro n
  induction n with
  | zero =>
    intro m l h1 h2
    cases l with
    | nil => cases m <;> rfl
    | cons c t => simp at h1
  | succ n ih =>
    intro m l h1 h2
    cases l with
    | nil => cases m <;> rfl
    | cons c t =>
      cases m with
      | zero => simp at h2
      | succ m =>
        simp only [wrapLinesFuel]
        congr 1
        apply ih
        · simp only [List.length_drop, List.length_cons, FASTA_WRAP_WIDTH]
          simp only [List.length_cons] at h1
          omega
        · simp only [List.length_drop, List.length_cons, FASTA_WRAP_WIDTH]
          simp only [List.length_cons] at h2
          omega

/-- The lines written for one FASTA record (main.rs:297-298): the `>` header
line followed by the wrapped sequence lines. -/
def fastaRecordLines (header : String) (seq : List Char) : List (List Char) :=
  ('>' :: header.toList) :: wrapLines seq

theorem wrapLines_nil : wrapLines [] = [] := rfl

theorem wrapLines_cons (c : Char) (t : List Char) :
    wrapLines (c :: t) =
      (c :: t).take FASTA_WRAP_WIDTH :: wrapLines ((c :: t).drop FASTA_WRAP_WIDTH) := by
  show wrapLinesFuel (t.length + 1) (c :: t) = _
  simp only [wrapLinesFuel, wrapLines]
  congr 1
  apply wrapLinesFuel_congr
  · simp only [List.length_drop, List.length_cons, FASTA_WRAP_WIDTH]
    omega
  · exact le_rfl

/-- Induction principle following the recursion structure of `wrapLines`. -/
theorem wrapLines_rec (P : List Char → Prop) (h0 : P [])
    (h1 : ∀ c t, P ((c :: t).drop FASTA_WRAP_WIDTH) → P (c :: t)) (s : List Char) : P s := by
  have key : ∀ n (s : List Char), s.length ≤ n → P s := by
    intro n
    induction n with
    | zero =>
      intro s hs
      cases s with
      | nil => exact h0
      | cons c t => simp at hs
    | succ n ih =>
      intro s hs
      cases s with
      | nil => exact h0
      | cons c t =>
        refine h1 c t (ih _ ?_)
        simp only [List.length_drop, List.length_cons] at *
        simp [FASTA_WRAP_WIDTH]
        omega
  exact key s.length s le_rfl

theorem wrapLines_eq_nil_iff (s : List Char) : wrapLines s = [] ↔ s = [] := by
  cases s with
  | nil => simp [wrapLines_nil]
  | cons c t => rw [wrapLines_cons]; simp

theorem wrapLines_join (s : List Char) : (wrapLines s).flatten = s := by
  induction s using wrapLines_rec with
  | h0 => simp [wrapLines_nil]
  | h1 c t ih =>
    rw [wrapLines_cons]
    simp only [List.flatten_cons, ih]
    exact List.take_append_drop _ _

theorem wrapLines_length (s : List Char) :
    (wrapLines s).length = (s.length + 59) / 60 := by
  induction s using wrapLines_rec with
  | h0 => simp [wrapLines_nil]
  | h1 c t ih =>
    rw [wrapLines_cons]
    simp only [List.length_cons, ih, List.length_drop]
    show ((c :: t).length - FASTA_WRAP_WIDTH + 59) / 60 + 1 = ((c :: t).length + 59) / 60
    have h1 : (0:Nat) < (c :: t).length := by simp
    simp only [FASTA_WRAP_WIDTH]
    omega

theorem wrapLines_dropLast_length (s : List Char) :
    ∀ l ∈ (wrapLines s).dropLast, l.length = 60 := by
  induction s using wrapLines_rec with
  | h0 => simp [wrapLines_nil]
  | h1 c t ih =>
    rw [wrapLines_cons]
    intro l hl
    rcases h0 : wrapLines ((c :: t).drop FASTA_WRAP_WIDTH) with _ | ⟨w, ws⟩
    · rw [h0] at hl
      simp at hl
    · rw [h0] at hl
      rw [List.dropLast_cons_of_ne_nil (by simp)] at hl
      rcases List.mem_cons.mp hl with h | h
      · subst h
        have hd : (c :: t).drop FASTA_WRAP_WIDTH ≠ [] := by
          intro hc
          rw [hc] at h0
          exact absurd (wrapLines_nil.symm.trans h0).symm (List.cons_ne_nil _ _)
        have hlen : 60 ≤ (c :: t).length := by
          by_contra hlt
          push_neg at hlt
          exact hd (List.drop_eq_nil_of_le (by simpa [FASTA_WRAP_WIDTH] using Nat.le_of_lt hlt))
        simp only [List.length_cons] at hlen
        simp [FASTA_WRAP_WIDTH, List.length_take]
        omega
      · exact ih l (by rw [h0]; exact h)

/-- C3: for every emitted FASTA record with sequence of length L the emitter
writes the header line followed by exactly ceil(L/60) sequence lines, every
sequence line except possibly the last has length exactly 60, the sequence
lines concatenate back to the emitted sequence, and a zero-length sequence
produces the header line alone. -/
theorem claim_C3 (header : String) (seq : List Char) :
    fastaRecordLines header seq = ('>' :: header.toList) :: wrapLines seq
    ∧ (wrapLines seq).length = (seq.length + 59) / 60
    ∧ ((wrapLines seq).dropLast.all fun l => l.length == 60) = true
    ∧ (wrapLines seq).flatten = seq
    ∧ fastaRecordLines header [] = [('>' :: header.toList)] := by
  refine ⟨rfl, wrapLines_length seq, ?_, wrapLines_join seq, by
    simp [fastaRecordLines, wrapLines_nil]⟩
  rw [List.all_eq_true]
  intro l hl
  exact beq_iff_eq.mpr (wrapLines_dropLast_length seq l hl)

/-! ## Orientation resolver: table mode (`load_orientation_map`, main.rs:78-131) -/

/-- Diagnostic for an empty orientation cell (main.rs:126):
`Empty orientation for read '<id>'`. -/
def emptyOriMsg (id : String) : List Char :=
  "Empty orientation for read \x27".toList ++ id.toList ++ "\x27".toList

/-- Diagnostic for an unrecognized orientation token (main.rs:121):
`Unrecognized orientation value '<s>' for read '<id>'`, where `<s>` is the
lower-cased token. -/
def unrecognizedMsg (s : List Char) (id : String) : List Char :=
  "Unrecognized orientation value \x27".toList ++ s
    ++ "\x27 for read \x27".toList ++ id.toList ++ "\x27".toList

/-- The plus-alias test of main.rs:116 on the lower-cased token:
starts with `plus` or `fwd`, or equals `1`. -/
def plusCond (s : List Char) : Prop :=
  "plus".toList <+: s ∨ "fwd".toList <+: s ∨ s = "1".toList

/-- The minus-alias test of main.rs:118 on the lower-cased token:
starts with `minus` or `rev`, or equals `0` or `rc`. -/
def minusCond (s : List Char) : Prop :=
  "minus".toList <+: s ∨ "rev".toList <+: s ∨ s = "0".toList ∨ s = "rc".toList

instance (s : List Char) : Decidable (plusCond s) :=
  inferInstanceAs (Decidable (_ ∨ _ ∨ _))

instance (s : List Char) : Decidable (minusCond s) :=
  inferInstanceAs (Decidable (_ ∨ _ ∨ _ ∨ _))

/-- Table-mode orientation parsing applied to the already-trimmed orientation
cell `oriField` (the `ori` computation, main.rs:110-127). Returns the stored
orientation byte (`'+'`/`'-'`) or the diagnostic message. -/
def parseOriField (id : String) (oriField : List Char) : Except (List Char) Char :=
  match oriField with
  | [] => .error (emptyOriMsg id)
  | c :: rest =>
    if c = '+' then .ok '+'
    else if c = '-' then .ok '-'
    else
      let s := (c :: rest).map toAsciiLower
      if plusCond s then .ok '+'
      else if minusCond s then .ok '-'
      else .error (unrecognizedMsg s id)

/-- The orientation table, in row order; lookup gives the last binding for an
id, matching repeated `HashMap::insert`. -/
abbrev OriMap := List (String × Char)

/-- `HashMap::get` on the table built by repeated inserts: the last row with
a matching id wins. -/
def oriLookup (m : OriMap) (id : String) : Option Char :=
  m.foldl (fun acc p => if p.1 = id then some p.2 else acc) none

/-- `load_orientation_map` (main.rs:78-131) over the parsed data rows, each
row given as (id cell, orientation cell): trims the orientation cell, parses
it, and collects the id→orientation bindings; the first failing row aborts
the whole load. -/
def load_orientation_map : List (String × String) → Except (List Char) OriMap
  | [] => .ok []
  | (id, cell) :: rest =>
    match parseOriField id (trimList cell.toList) with
    | .error e => .error e
    | .ok o =>
      match load_orientation_map rest with
      | .error e => .error e
      | .ok m => .ok ((id, o) :: m)

/-! ## Orientation resolver: FASTQ header-tag mode (main.rs:134-151) -/

/-- The literal marker searched for in FASTQ headers. -/
def oriMarker : List Char := "orientation:".toList

/-- `extract_orientation_from_header` (main.rs:134-146): find the first
occurrence of `orientation:`; if its next character is `+` or `-` return that
orientation, otherwise (other character, nothing after the marker, or no
marker) return `none`. -/
def extract_orientation_from_header (h : List Char) : Option Char :=
  match h with
  | [] => none
  | _ :: t =>
    if oriMarker.isPrefixOf h then
      match h.drop oriMarker.length with
      | [] => none
      | d :: _ => if d = '+' then some '+' else if d = '-' then some '-' else none
    else extract_orientation_from_header t

/-- Fuel-indexed worker for `replaceOriList`. -/
def replaceOriFuel : Nat → List Char → List Char
  | _, [] => []
  | 0, l => l
  | Nat.succ n, c :: t =>
    if "orientation:-".toList.isPrefixOf (c :: t) then
      "orientation:+".toList ++ replaceOriFuel n (t.drop 12)
    else c :: replaceOriFuel n t

/-- `str::replace("orientation:-", "orientation:+")` on the character list:
left-to-right replacement of every non-overlapping occurrence. -/
def replaceOriList (h : List Char) : List Char :=
  replaceOriFuel h.length h

theorem replaceOriFuel_congr : ∀ (n m : Nat) (l : List Char), l.length ≤ n →
    l.length ≤ m → replaceOriFuel n l = replaceOriFuel m l := by
  intro n
  induction n with
  | zero =>
    intro m l h1 h2
    cases l with
    | nil => cases m <;> rfl
    | cons c t => simp at h1
  | succ n ih =>
    intro m l h1 h2
    cases l with
    | nil => cases m <;> rfl
    | cons c t =>
      cases m with
      | zero => simp at h2
      | succ m =>
        simp only [replaceOriFuel]
        simp only [List.length_cons] at h1 h2
        cases hp : "orientation:-".toList.isPrefixOf (c :: t) with
        | true =>
          simp only [hp, if_true]
          congr 1
          apply ih
          · simp only [List.length_drop]
            omega
          · simp only [List.length_drop]
            omega
        | false =>
          simp only [hp, Bool.false_eq_true, if_false]
          congr 1
          apply ih
          · omega
          · omega

theorem replaceOriList_nil : replaceOriList [] = [] := rfl

theorem replaceOriList_cons (c : Char) (t : List Char) :
    replaceOriList (c :: t) =
      if "orientation:-".toList.isPrefixOf (c :: t) then
        "orientation:+".toList ++ replaceOriList (t.drop 12)
      else c :: replaceOriList t := by
  show replaceOriFuel (t.length + 1) (c :: t) = _
  simp only [replaceOriFuel, replaceOriList]
  cases hp : "orientation:-".toList.isPrefixOf (c :: t) with
  | true =>
    simp only [hp, if_true]
    congr 1
    apply replaceOriFuel_congr
    · simp only [List.length_drop]
      omega
    · exact le_rfl
  | false =>
    simp only [hp, Bool.false_eq_true, if_false]

/-- `update_orientation_in_header` (main.rs:149-151). -/
def update_orientation_in_header (header : String) : String :=
  String.mk (replaceOriList header.toList)

/-! ## FASTQ pipeline (`process_fastq`, main.rs:161-227) -/

/-- A parsed FASTQ record; an absent description is the empty string
(`record.desc().unwrap_or("")`). Sequence and quality are byte strings. -/
structure FastqRecord where
  id : String
  desc : String
  seq : List Char
  qual : List Char
deriving DecidableEq

/-- The emitted FASTQ payload: header (written after `@`), sequence line and
quality line. -/
structure FastqOut where
  header : String
  seq : List Char
  qual : List Char
deriving DecidableEq

/-- Header reconstruction (main.rs:176-180): id, plus a space and the
description when the description is non-empty. -/
def fastqHeader (r : FastqRecord) : String :=
  if r.desc = "" then r.id else r.id ++ " " ++ r.desc

/-- The per-record body of the `process_fastq` loop (main.rs:189-210): the
emitted record together with the two counter flags
(record was flipped, record had no orientation tag). -/
def processFastqRecord (target : Char) (r : FastqRecord) : FastqOut × Bool × Bool :=
  let header := fastqHeader r
  match extract_orientation_from_header header.toList with
  | some o =>
    if o ≠ target then
      (⟨update_orientation_in_header header, revcomp r.seq, r.qual.reverse⟩, true, false)
    else
      (⟨header, r.seq, r.qual⟩, false, false)
  | none => (⟨header, r.seq, r.qual⟩, false, true)

/-! ## FASTA pipeline (`main`, main.rs:229-312) -/

/-- A parsed FASTA record; an absent description is the empty string. -/
structure FastaRecord where
  id : String
  desc : String
  seq : List Char
deriving DecidableEq

/-- Header reconstruction for FASTA records (main.rs:263-269). -/
def fastaHeader (r : FastaRecord) : String :=
  if r.desc = "" then r.id else r.id ++ " " ++ r.desc

/-- The FASTA-mode configuration that the per-record logic depends on. -/
structure FastaCfg where
  target : Char
  dropMissing : Bool
  flippedSuffix : String
deriving DecidableEq

/-- The per-record body of the FASTA loop (main.rs:259-298): `none` when the
record is suppressed by `--drop-missing`, otherwise the emitted
(header, sequence) pair; the two flags are the counter increments
(record was flipped, record was counted missing). -/
def processFastaRecord (cfg : FastaCfg) (m : OriMap) (r : FastaRecord) :
    Option (String × List Char) × Bool × Bool :=
  match oriLookup m r.id with
  | some ori =>
    if ori = cfg.target then
      (some (fastaHeader r, r.seq), false, false)
    else
      (some ((if cfg.flippedSuffix = "" then fastaHeader r
              else fastaHeader r ++ cfg.flippedSuffix), revcomp r.seq), true, false)
  | none =>
    if cfg.dropMissing then (none, false, true)
    else (some (fastaHeader r, r.seq), false, false)

/-- End-of-run counters of the FASTA loop (`n_total`, `n_flipped`,
`n_missing`; main.rs:255-257). -/
structure FastaCounters where
  total : Nat
  flipped : Nat
  missing : Nat
deriving DecidableEq

/-- The FASTA record loop: emitted records in input order plus the final
counters. -/
def runFastaRecords (cfg : FastaCfg) (m : OriMap) :
    List FastaRecord → List (String × List Char) × FastaCounters
  | [] => ([], ⟨0, 0, 0⟩)
  | r :: rs =>
    let step := processFastaRecord cfg m r
    let rest := runFastaRecords cfg m rs
    (match step.1 with
     | some p => p :: rest.1
     | none => rest.1,
     ⟨rest.2.total + 1,
      rest.2.flipped + (if step.2.1 then 1 else 0),
      rest.2.missing + (if step.2.2 then 1 else 0)⟩)

/-- The whole FASTA mode run (main.rs:244-299): load the orientation table,
then stream the records; a table-load failure aborts before any record is
emitted. -/
def runFasta (cfg : FastaCfg) (rows : List (String × String))
    (records : List FastaRecord) :
    Except (List Char) (List (String × List Char) × FastaCounters) :=
  match load_orientation_map rows with
  | .error e => .error e
  | .ok m => .ok (runFastaRecords cfg m records)

/-! ## Claims about the strand normalizer -/

/-- Case analysis on `processFastqRecord` by resolved orientation. -/
theorem processFastq_cases (target : Char) (r : FastqRecord) :
    (extract_orientation_from_header (fastqHeader r).toList = none →
      processFastqRecord target r = (⟨fastqHeader r, r.seq, r.qual⟩, false, true))
    ∧ (∀ o, extract_orientation_from_header (fastqHeader r).toList = some o →
      (o = target →
        processFastqRecord target r = (⟨fastqHeader r, r.seq, r.qual⟩, false, false))
      ∧ (o ≠ target →
        processFastqRecord target r =
          (⟨update_orientation_in_header (fastqHeader r),
            revcomp r.seq, r.qual.reverse⟩, true, false))) := by
  refine ⟨?_, ?_⟩
  · intro hE
    have hE2 : extract_orientation_from_header (fastqHeader r).data = none := hE
    simp [processFastqRecord, hE2]
  · intro o hE
    have hE2 : extract_orientation_from_header (fastqHeader r).data = some o := hE
    constructor
    · intro ho
      subst ho
      simp [processFastqRecord, hE2]
    · intro ho
      simp [processFastqRecord, hE2, ho]

/-- C1: for every record the normalizer's action is a function of (resolved
orientation, target): when the resolved orientation equals the target the
output sequence bytes equal the input bytes exactly (FASTQ and FASTA); when it
is Plus or Minus and differs from the target the output sequence is the
case-preserving reverse complement of the input and, in FASTQ mode, the output
quality is the byte-for-byte reversal of the input quality. -/
theorem claim_C1 (target : Char) (fq : FastqRecord) (o : Char)
    (cfg : FastaCfg) (m : OriMap) (fa : FastaRecord) (oa : Char) :
    (extract_orientation_from_header (fastqHeader fq).toList = some o →
      (o = target →
        (processFastqRecord target fq).1.seq = fq.seq
        ∧ (processFastqRecord target fq).1.qual = fq.qual)
      ∧ (o ≠ target →
        (processFastqRecord target fq).1.seq = revcomp fq.seq
        ∧ (processFastqRecord target fq).1.qual = fq.qual.reverse))
    ∧ (oriLookup m fa.id = some oa →
      (oa = cfg.target →
        ((processFastaRecord cfg m fa).1.map Prod.snd) = some fa.seq)
      ∧ (oa ≠ cfg.target →
        ((processFastaRecord cfg m fa).1.map Prod.snd) = some (revcomp fa.seq))) := by
  constructor
  · intro hE
    constructor
    · intro ho
      rw [((processFastq_cases target fq).2 o hE).1 ho]
      exact ⟨rfl, rfl⟩
    · intro ho
      rw [((processFastq_cases target fq).2 o hE).2 ho]
      exact ⟨rfl, rfl⟩
  · intro hL
    constructor
    · intro ho
      subst ho
      simp [processFastaRecord, hL]
    · intro ho
      simp [processFastaRecord, hL, ho]

theorem claim_C1_witness :
    (processFastqRecord '+' ⟨"r", "orientation:-", ['A', 'c'], ['I', 'J']⟩).1.seq
        = revcomp ['A', 'c']
    ∧ (processFastqRecord '+' ⟨"r", "orientation:-", ['A', 'c'], ['I', 'J']⟩).1.qual
        = ['I', 'J'].reverse
    ∧ ((processFastaRecord ⟨'+', false, "/rc"⟩ [("x", '-')] ⟨"x", "", ['G']⟩).1.map Prod.snd)
        = some (revcomp ['G'])
    ∧ ((processFastaRecord ⟨'+', false, "/rc"⟩ [("y", '+')] ⟨"y", "", ['G']⟩).1.map Prod.snd)
        = some ['G'] := by
  have h1 := claim_C1 '+' ⟨"r", "orientation:-", ['A', 'c'], ['I', 'J']⟩ '-'
    ⟨'+', false, "/rc"⟩ [("x", '-')] ⟨"x", "", ['G']⟩ '-'
  have h2 := claim_C1 '+' ⟨"r", "orientation:-", ['A', 'c'], ['I', 'J']⟩ '-'
    ⟨'+', false, "/rc"⟩ [("y", '+')] ⟨"y", "", ['G']⟩ '+'
  exact ⟨((h1.1 (by decide)).2 (by decide)).1, ((h1.1 (by decide)).2 (by decide)).2,
    (h1.2 (by decide)).2 (by decide), (h2.2 (by decide)).1 (by decide)⟩

/-- C9: the FASTQ invariant `len(sequence) = len(quality)` is preserved: if it
holds for the parsed input record it holds for the emitted record under every
action, since reverse-complement preserves sequence length and quality
reversal preserves quality length. -/
theorem claim_C9 (target : Char) (r : FastqRecord)
    (h : r.seq.length = r.qual.length) :
    (processFastqRecord target r).1.seq.length
      = (processFastqRecord target r).1.qual.length := by
  cases hE : extract_orientation_from_header (fastqHeader r).toList with
  | none =>
    rw [(processFastq_cases target r).1 hE]
    exact h
  | some o =>
    by_cases ho : o = target
    · rw [((processFastq_cases target r).2 o hE).1 ho]
      exact h
    · rw [((processFastq_cases target r).2 o hE).2 ho]
      simpa [revcomp] using h

theorem claim_C9_witness :
    (processFastqRecord '+' ⟨"r", "orientation:-", ['A', 'C'], ['I', 'J']⟩).1.seq.length
      = (processFastqRecord '+' ⟨"r", "orientation:-", ['A', 'C'], ['I', 'J']⟩).1.qual.length :=
  claim_C9 '+' ⟨"r", "orientation:-", ['A', 'C'], ['I', 'J']⟩ (by decide)

/-- C8: in FASTQ mode the header is rewritten exactly when the record is
flipped, and then it equals the input header with every occurrence of the
literal substring `orientation:-` replaced by `orientation:+` (a pure textual
substitution: any occurrence is rewritten, and a header without the substring
is left intact); on any other action the header is unmodified. -/
theorem claim_C8 (target : Char) (r : FastqRecord) (h t : List Char) :
    ((processFastqRecord target r).2.1 = true →
      (processFastqRecord target r).1.header
        = update_orientation_in_header (fastqHeader r))
    ∧ ((processFastqRecord target r).2.1 = false →
      (processFastqRecord target r).1.header = fastqHeader r)
    ∧ replaceOriList ("orientation:-".toList ++ t)
        = "orientation:+".toList ++ replaceOriList t
    ∧ (¬ ("orientation:-".toList <:+: h) → replaceOriList h = h) := by
  refine ⟨?_, ?_, ?_, ?_⟩
  · intro hf
    cases hE : extract_orientation_from_header (fastqHeader r).toList with
    | none => rw [(processFastq_cases target r).1 hE] at hf; simp at hf
    | some o =>
      by_cases ho : o = target
      · rw [((processFastq_cases target r).2 o hE).1 ho] at hf
        simp at hf
      · rw [((processFastq_cases target r).2 o hE).2 ho]
  · intro hf
    cases hE : extract_orientation_from_header (fastqHeader r).toList with
    | none => rw [(processFastq_cases target r).1 hE]
    | some o =>
      by_cases ho : o = target
      · rw [((processFastq_cases target r).2 o hE).1 ho]
      · rw [((processFastq_cases target r).2 o hE).2 ho] at hf
        simp at hf
  · have hpre : "orientation:-".toList.isPrefixOf
        ("orientation:-".toList ++ t) = true := by
      rw [ List.isPrefixOf_iff_prefix]
      exact ⟨t, rfl⟩
    rw [show "orientation:-".toList ++ t
          = 'o' :: ("rientation:-".toList ++ t) from rfl] at hpre ⊢
    rw [replaceOriList_cons, if_pos hpre]
    congr 1
  · induction h with
    | nil => intro _; exact replaceOriList_nil
    | cons c cs ih =>
      intro hni
      rw [replaceOriList_cons]
      have hp : "orientation:-".toList.isPrefixOf (c :: cs) = false := by
        cases hb : "orientation:-".toList.isPrefixOf (c :: cs) with
        | false => rfl
        | true =>
          exact absurd (( List.isPrefixOf_iff_prefix.mp hb).isInfix) hni
      rw [hp]
      simp only [Bool.false_eq_true, if_false]
      congr 1
      exact ih (fun hinf => hni (List.infix_cons hinf))

theorem claim_C8_witness :
    (processFastqRecord '+' ⟨"r", "orientation:- orientation:-x", ['A'], ['I']⟩).1.header
      = update_orientation_in_header "r orientation:- orientation:-x"
    ∧ (processFastqRecord '+' ⟨"r", "orientation:+", ['A'], ['I']⟩).1.header
      = "r orientation:+" := by
  constructor
  · exact (claim_C8 '+' ⟨"r", "orientation:- orientation:-x", ['A'], ['I']⟩ [] []).1
      (by decide)
  · exact (claim_C8 '+' ⟨"r", "orientation:+", ['A'], ['I']⟩ [] []).2.1 (by decide)

/-- The plus- and minus-alias tests are mutually exclusive, so the code's
check order does not matter: a token passing the minus test always reaches the
minus branch. -/
theorem minusCond_not_plusCond (s : List Char) (h : minusCond s) : ¬ plusCond s := by
  intro hp
  rcases h with h | h | h | h <;> rcases hp with hp | hp | hp
  · rcases List.prefix_or_prefix_of_prefix h hp with hx | hx <;> exact absurd hx (by decide)
  · rcases List.prefix_or_prefix_of_prefix h hp with hx | hx <;> exact absurd hx (by decide)
  · subst hp; exact absurd h (by decide)
  · rcases List.prefix_or_prefix_of_prefix h hp with hx | hx <;> exact absurd hx (by decide)
  · rcases List.prefix_or_prefix_of_prefix h hp with hx | hx <;> exact absurd hx (by decide)
  · subst hp; exact absurd h (by decide)
  · subst h; exact absurd hp (by decide)
  · subst h; exact absurd hp (by decide)
  · rw [h] at hp; exact absurd hp (by decide)
  · subst h; exact absurd hp (by decide)
  · subst h; exact absurd hp (by decide)
  · rw [h] at hp; exact absurd hp (by decide)

/-- C2: table-mode orientation parsing on the trimmed orientation cell: a
token starting with `+` resolves Plus and one starting with `-` resolves
Minus; otherwise the lower-cased full token resolves Plus when it starts with
`plus`/`fwd` or equals `1`, Minus when it starts with `minus`/`rev` or equals
`0`/`rc` (so the cell `"Reverse"` resolves to Minus); the empty token fails
with the empty-orientation error and any other non-empty token fails with the
unrecognized-orientation error. -/
theorem claim_C2 (id : String) (cell : String) (c : Char) (rest : List Char) :
    (trimList cell.toList = '+' :: rest →
      parseOriField id (trimList cell.toList) = .ok '+')
    ∧ (trimList cell.toList = '-' :: rest →
      parseOriField id (trimList cell.toList) = .ok '-')
    ∧ (trimList cell.toList = c :: rest → c ≠ '+' → c ≠ '-' →
        (plusCond ((c :: rest).map toAsciiLower) →
          parseOriField id (trimList cell.toList) = .ok '+')
        ∧ (minusCond ((c :: rest).map toAsciiLower) →
          parseOriField id (trimList cell.toList) = .ok '-')
        ∧ (¬ plusCond ((c :: rest).map toAsciiLower) →
           ¬ minusCond ((c :: rest).map toAsciiLower) →
          parseOriField id (trimList cell.toList)
            = .error (unrecognizedMsg ((c :: rest).map toAsciiLower) id)))
    ∧ (trimList cell.toList = [] →
      parseOriField id (trimList cell.toList) = .error (emptyOriMsg id))
    ∧ parseOriField id (trimList "Reverse".toList) = .ok '-' := by
  refine ⟨?_, ?_, ?_, ?_, ?_⟩
  · intro hT
    rw [hT]
    simp [parseOriField]
  · intro hT
    rw [hT]
    simp [parseOriField]
  · intro hT hcp hcm
    refine ⟨?_, ?_, ?_⟩
    · intro hplus
      rw [hT]
      simp only [parseOriField]
      rw [if_neg hcp, if_neg hcm, if_pos hplus]
    · intro hminus
      rw [hT]
      simp only [parseOriField]
      rw [if_neg hcp, if_neg hcm, if_neg (minusCond_not_plusCond _ hminus),
        if_pos hminus]
    · intro hplus hminus
      rw [hT]
      simp only [parseOriField]
      rw [if_neg hcp, if_neg hcm, if_neg hplus, if_neg hminus]
  · intro hT
    rw [hT]
    simp [parseOriField]
  · have ht : trimList "Reverse".toList = 'R' :: "everse".toList := by decide
    rw [ht]
    simp only [parseOriField]
    rw [if_neg (by decide), if_neg (by decide),
      if_neg (show ¬ plusCond (('R' :: "everse".toList).map toAsciiLower) by decide),
      if_pos (show minusCond (('R' :: "everse".toList).map toAsciiLower) by decide)]

theorem claim_C2_witness :
    parseOriField "r1" (trimList " +cDNA ".toList) = .ok '+'
    ∧ parseOriField "r1" (trimList "Reverse".toList) = .ok '-'
    ∧ parseOriField "r1" (trimList "FWD".toList) = .ok '+'
    ∧ parseOriField "r1" (trimList "  ".toList) = .error (emptyOriMsg "r1")
    ∧ parseOriField "r1" (trimList "wut".toList)
        = .error (unrecognizedMsg "wut".toList "r1") := by
  refine ⟨?_, ?_, ?_, ?_, ?_⟩
  · exact (claim_C2 "r1" " +cDNA " '+' "cDNA".toList).1 (by decide)
  · exact (claim_C2 "r1" "Reverse" 'R' "everse".toList).2.2.2.2
  · exact (((claim_C2 "r1" "FWD" 'F' "WD".toList).2.2.1 (by decide) (by decide)
      (by decide)).1 (by decide))
  · exact (claim_C2 "r1" "  " 'x' []).2.2.2.1 (by decide)
  · exact (((claim_C2 "r1" "wut" 'w' "ut".toList).2.2.1 (by decide) (by decide)
      (by decide)).2.2 (by decide) (by decide))

/-- A record found in the table is always emitted, and is never counted
missing. -/
theorem processFasta_found (cfg : FastaCfg) (m : OriMap) (r : FastaRecord)
    (o : Char) (hL : oriLookup m r.id = some o) :
    (∃ p, (processFastaRecord cfg m r).1 = some p)
    ∧ (processFastaRecord cfg m r).2.2 = false := by
  by_cases ho : o = cfg.target <;> simp [processFastaRecord, hL, ho]

/-- With `--drop-missing`, a record absent from the table is suppressed and
counted missing. -/
theorem processFasta_missing_drop (cfg : FastaCfg) (m : OriMap) (r : FastaRecord)
    (hL : oriLookup m r.id = none) (hd : cfg.dropMissing = true) :
    processFastaRecord cfg m r = (none, false, true) := by
  simp [processFastaRecord, hL, hd]

/-- Without `--drop-missing`, a record absent from the table is emitted
unchanged — and the missing flag is `false`: main.rs:276-283 increments
`n_missing` only inside the drop branch. -/
theorem processFasta_missing_keep (cfg : FastaCfg) (m : OriMap) (r : FastaRecord)
    (hL : oriLookup m r.id = none) (hd : cfg.dropMissing = false) :
    processFastaRecord cfg m r = (some (fastaHeader r, r.seq), false, false) := by
  simp [processFastaRecord, hL, hd]

/-- C4: the code evaluated at the failing input of the claim. With
`drop_missing` false and an empty orientation table, the record `readB` absent
from the table is emitted unchanged (action Keep) — but the run's missing
counter ends at 0, not 1: main.rs:276-283 increments `n_missing` only in the
drop branch, so in kept mode the reported `missing_in_table` count stays 0,
contradicting the claim's (and the summary line's) "counted as missing". -/
theorem claim_C4_eval :
    runFastaRecords ⟨'+', false, ""⟩ [] [⟨"readB", "", "ACGT".toList⟩]
      = ([("readB", "ACGT".toList)], ⟨1, 0, 0⟩) := by
  decide

/-- C6: with `drop_missing` true every record absent from the table is
suppressed (not emitted) and counted missing, and the emitted records are
exactly the processed non-suppressed input records in input order; with
`drop_missing` false every input record is emitted exactly once, in input
order. -/
theorem claim_C6 (cfg : FastaCfg) (m : OriMap) (rs : List FastaRecord) :
    (cfg.dropMissing = true →
      (runFastaRecords cfg m rs).1
          = (rs.filter (fun r => (oriLookup m r.id).isSome)).filterMap
              (fun r => (processFastaRecord cfg m r).1)
      ∧ (runFastaRecords cfg m rs).2.missing
          = (rs.filter (fun r => (oriLookup m r.id).isNone)).length)
    ∧ (cfg.dropMissing = false →
      (runFastaRecords cfg m rs).1
          = rs.filterMap (fun r => (processFastaRecord cfg m r).1)
      ∧ (runFastaRecords cfg m rs).1.length = rs.length) := by
  induction rs with
  | nil => exact ⟨fun _ => ⟨rfl, rfl⟩, fun _ => ⟨rfl, rfl⟩⟩
  | cons r rs ih =>
    constructor
    · intro hd
      obtain ⟨ih1, ih2⟩ := ih.1 hd
      cases hL : oriLookup m r.id with
      | none =>
        have hstep := processFasta_missing_drop cfg m r hL hd
        constructor
        · simp [runFastaRecords, hstep, List.filter_cons, hL, ih1]
        · simp [runFastaRecords, hstep, List.filter_cons, hL, ih2]
      | some o =>
        obtain ⟨⟨p, hp⟩, hm⟩ := processFasta_found cfg m r o hL
        constructor
        · simp [runFastaRecords, hp, List.filter_cons, hL, ih1, List.filterMap_cons]
        · simp [runFastaRecords, hm, List.filter_cons, hL, ih2]
    · intro hd
      obtain ⟨ih1, ih2⟩ := ih.2 hd
      have hemit : ∃ p, (processFastaRecord cfg m r).1 = some p := by
        cases hL : oriLookup m r.id with
        | none => exact ⟨_, by rw [processFasta_missing_keep cfg m r hL hd]⟩
        | some o => exact (processFasta_found cfg m r o hL).1
      obtain ⟨p, hp⟩ := hemit
      constructor
      · simp [runFastaRecords, hp, List.filterMap_cons, ih1]
      · simp [runFastaRecords, hp, ih2]

theorem claim_C6_witness :
    (runFastaRecords ⟨'+', true, ""⟩ [("a", '+')]
        [⟨"a", "", ['C']⟩, ⟨"b", "", ['G']⟩]).1
      = (([⟨"a", "", ['C']⟩, ⟨"b", "", ['G']⟩] : List FastaRecord).filter
          (fun r => (oriLookup [("a", '+')] r.id).isSome)).filterMap
          (fun r => (processFastaRecord ⟨'+', true, ""⟩ [("a", '+')] r).1)
    ∧ (runFastaRecords ⟨'+', true, ""⟩ [("a", '+')]
        [⟨"a", "", ['C']⟩, ⟨"b", "", ['G']⟩]).2.missing
      = (([⟨"a", "", ['C']⟩, ⟨"b", "", ['G']⟩] : List FastaRecord).filter
          (fun r => (oriLookup [("a", '+')] r.id).isNone)).length
    ∧ (runFastaRecords ⟨'+', false, ""⟩ [("a", '+')]
        [⟨"a", "", ['C']⟩, ⟨"b", "", ['G']⟩]).1.length
      = [⟨"a", "", ['C']⟩, (⟨"b", "", ['G']⟩ : FastaRecord)].length := by
  refine ⟨?_, ?_, ?_⟩
  · exact ((claim_C6 ⟨'+', true, ""⟩ [("a", '+')]
      [⟨"a", "", ['C']⟩, ⟨"b", "", ['G']⟩]).1 rfl).1
  · exact ((claim_C6 ⟨'+', true, ""⟩ [("a", '+')]
      [⟨"a", "", ['C']⟩, ⟨"b", "", ['G']⟩]).1 rfl).2
  · exact ((claim_C6 ⟨'+', false, ""⟩ [("a", '+')]
      [⟨"a", "", ['C']⟩, ⟨"b", "", ['G']⟩]).2 rfl).2

/-! ## First-occurrence characterization of the FASTQ header tag search -/

/-- The marker `orientation:` occurs in `h` at position `i`. -/
def occursAt (h : List Char) (i : Nat) : Prop :=
  oriMarker <+: h.drop i

instance (h : List Char) (i : Nat) : Decidable (occursAt h i) :=
  inferInstanceAs (Decidable (_ <+: _))

/-- The orientation read off the character following the marker. -/
def oriCharOf (x : Option Char) : Option Char :=
  match x with
  | none => none
  | some d => if d = '+' then some '+' else if d = '-' then some '-' else none

theorem oriMarker_ne_nil : oriMarker ≠ [] := by decide

/-- If the marker does not occur at all, extraction returns `none`. -/
theorem extract_none_of_no_occ (h : List Char)
    (hno : ∀ i, ¬ occursAt h i) : extract_orientation_from_header h = none := by
  induction h with
  | nil => rfl
  | cons c t ih =>
    have hp : oriMarker.isPrefixOf (c :: t) = false := by
      cases hb : oriMarker.isPrefixOf (c :: t) with
      | false => rfl
      | true => exact absurd ( List.isPrefixOf_iff_prefix.mp hb) (hno 0)
    simp only [extract_orientation_from_header, hp, Bool.false_eq_true, if_false]
    exact ih (fun i => hno (i + 1))

/-- Extraction is determined by the first occurrence of the marker: it reads
the character right after that occurrence. -/
theorem extract_eq_of_first (h : List Char) (i : Nat) (hocc : occursAt h i)
    (hfirst : ∀ j, j < i → ¬ occursAt h j) :
    extract_orientation_from_header h
      = oriCharOf ((h.drop (i + oriMarker.length)).head?) := by
  induction h generalizing i with
  | nil =>
    exact absurd (List.prefix_nil.mp (by simpa [occursAt] using hocc)) oriMarker_ne_nil
  | cons c t ih =>
    cases hp : oriMarker.isPrefixOf (c :: t) with
    | true =>
      have hi : i = 0 := by
        by_contra hne
        exact hfirst 0 (Nat.pos_of_ne_zero hne)
          (by simpa [occursAt] using List.isPrefixOf_iff_prefix.mp hp)
      subst hi
      simp only [extract_orientation_from_header, hp, if_true]
      cases hd : (c :: t).drop oriMarker.length with
      | nil =>
        rw [show (0 + oriMarker.length) = oriMarker.length from by omega, hd]
        rfl
      | cons d ds =>
        rw [show (0 + oriMarker.length) = oriMarker.length from by omega, hd]
        rfl
    | false =>
      have hi : i ≠ 0 := by
        intro hz
        subst hz
        have : oriMarker.isPrefixOf (c :: t) = true :=
          List.isPrefixOf_iff_prefix.mpr (by simpa [occursAt] using hocc)
        rw [this] at hp
        cases hp
      obtain ⟨j, rfl⟩ : ∃ j, i = j + 1 := ⟨i - 1, by omega⟩
      simp only [extract_orientation_from_header, hp, Bool.false_eq_true, if_false]
      have hocc2 : occursAt t j := hocc
      have hfirst2 : ∀ j2, j2 < j → ¬ occursAt t j2 :=
        fun j2 hj2 => hfirst (j2 + 1) (by omega)
      exact ih j hocc2 hfirst2

/-- C10: FASTQ orientation extraction inspects only the first occurrence of
the marker `orientation:` in the header: whenever the character immediately
after the first occurrence is neither `+` nor `-` (or there is none), the
result is Unknown — even if a later occurrence is immediately followed by `+`
or `-`. -/
theorem claim_C10 (h : List Char) (i : Nat) (hocc : occursAt h i)
    (hfirst : ∀ j, j < i → ¬ occursAt h j)
    (hplus : (h.drop (i + oriMarker.length)).head? ≠ some '+')
    (hminus : (h.drop (i + oriMarker.length)).head? ≠ some '-') :
    extract_orientation_from_header h = none := by
  rw [extract_eq_of_first h i hocc hfirst]
  cases hd : (h.drop (i + oriMarker.length)).head? with
  | none => rfl
  | some d =>
    rw [hd] at hplus hminus
    have h1 : d ≠ '+' := fun hh => hplus (by rw [hh])
    have h2 : d ≠ '-' := fun hh => hminus (by rw [hh])
    simp [oriCharOf, h1, h2]

theorem claim_C10_witness :
    extract_orientation_from_header "orientation:x orientation:+".toList = none :=
  claim_C10 "orientation:x orientation:+".toList 0 (by decide)
    (fun j hj => absurd hj (Nat.not_lt_zero j)) (by decide) (by decide)

/-- C7 counterexample: in the header `orientation:x orientation:+` the literal
marker `orientation:` is (at its second occurrence) followed immediately by
`+`, yet extraction yields Unknown — refuting "yields Plus or Minus exactly
when the marker is followed immediately by `+` or `-`". -/
theorem claim_C7_counterexample :
    (∃ pre post : List Char,
      "orientation:x orientation:+".toList = pre ++ oriMarker ++ '+' :: post)
    ∧ extract_orientation_from_header "orientation:x orientation:+".toList
        = none := by
  constructor
  · exact ⟨"orientation:x ".toList, [], by decide⟩
  · decide

/-- C7 (amended): extraction never fails; it yields Plus or Minus exactly when
the FIRST occurrence of the literal marker `orientation:` is followed
immediately by `+` or `-`, and yields Unknown otherwise; a record resolved as
Unknown is emitted unchanged (action Keep, no transformation) and counted
separately as having no orientation tag. -/
theorem claim_C7 (h : List Char) (target : Char) (r : FastqRecord) :
    ((∃ o, extract_orientation_from_header h = some o)
      ↔ ∃ i, occursAt h i ∧ (∀ j, j < i → ¬ occursAt h j)
          ∧ ((h.drop (i + oriMarker.length)).head? = some '+'
             ∨ (h.drop (i + oriMarker.length)).head? = some '-'))
    ∧ (extract_orientation_from_header (fastqHeader r).toList = none →
        processFastqRecord target r = (⟨fastqHeader r, r.seq, r.qual⟩, false, true)) := by
  constructor
  · constructor
    · rintro ⟨o, ho⟩
      by_cases hex : ∃ i, occursAt h i
      · have hocc := Nat.find_spec hex
        have hfirst : ∀ j, j < Nat.find hex → ¬ occursAt h j :=
          fun j hj => Nat.find_min hex hj
        rw [extract_eq_of_first h (Nat.find hex) hocc hfirst] at ho
        refine ⟨Nat.find hex, hocc, hfirst, ?_⟩
        cases hd : (h.drop (Nat.find hex + oriMarker.length)).head? with
        | none => rw [hd] at ho; cases ho
        | some d =>
          rw [hd] at ho
          by_cases h1 : d = '+'
          · exact Or.inl (by rw [h1])
          · by_cases h2 : d = '-'
            · exact Or.inr (by rw [h2])
            · simp [oriCharOf, h1, h2] at ho
      · push_neg at hex
        rw [extract_none_of_no_occ h hex] at ho
        cases ho
    · rintro ⟨i, hocc, hfirst, hd⟩
      rw [extract_eq_of_first h i hocc hfirst]
      rcases hd with hd | hd
      · exact ⟨'+', by rw [hd]; rfl⟩
      · exact ⟨'-', by rw [hd]; rfl⟩
  · exact (processFastq_cases target r).1

theorem claim_C7_witness :
    (∃ o, extract_orientation_from_header "read1 orientation:+ extra".toList
        = some o)
    ∧ processFastqRecord '+' ⟨"nomarker", "", ['A'], ['I']⟩
        = (⟨"nomarker", ['A'], ['I']⟩, false, true) := by
  constructor
  · exact (claim_C7 "read1 orientation:+ extra".toList '+'
      ⟨"nomarker", "", ['A'], ['I']⟩).1.mpr
      ⟨6, by decide, by decide, Or.inl (by decide)⟩
  · exact (claim_C7 [] '+' ⟨"nomarker", "", ['A'], ['I']⟩).2 (by decide)

/-! ## Table-load failure propagation -/

/-- If every row before some failing row parses, the whole load fails with
that row's diagnostic (no per-row skip, no mapping produced). -/
theorem load_append_error (pre post : List (String × String)) (id cell : String)
    (e : List Char) (hpre : ∃ m0, load_orientation_map pre = .ok m0)
    (hrow : parseOriField id (trimList cell.toList) = .error e) :
    load_orientation_map (pre ++ (id, cell) :: post) = .error e := by
  obtain ⟨m0, hm0⟩ := hpre
  induction pre generalizing m0 with
  | nil =>
    simp only [List.nil_append, load_orientation_map, hrow]
  | cons row pre ih =>
    obtain ⟨rid, rcell⟩ := row
    cases hp : parseOriField rid (trimList rcell.toList) with
    | error e2 =>
      rw [load_orientation_map, hp] at hm0
      cases hm0
    | ok o =>
      rw [load_orientation_map, hp] at hm0
      cases hl : load_orientation_map pre with
      | error e2 =>
        rw [hl] at hm0
        cases hm0
      | ok m1 =>
        rw [List.cons_append, load_orientation_map, hp, ih m1 hl]

/-- C5 counterexample: the table row `("r1", "FOO")` fails the load, but the
diagnostic contains the lower-cased token `foo`, not the literal offending
token `FOO`. -/
theorem claim_C5_counterexample :
    load_orientation_map [("r1", "FOO")]
        = .error (unrecognizedMsg "foo".toList "r1")
    ∧ ¬ ("FOO".toList <:+: unrecognizedMsg "foo".toList "r1") := by
  constructor
  · rfl
  · decide

/-- C5 (amended): if any row's orientation cell fails table-mode parsing, the
entire table load fails with that row's diagnostic (no per-row skip and no
mapping is produced) and the run aborts before any record is emitted; for a
non-empty failing token the diagnostic contains the ASCII-lower-cased
offending token (the code interpolates the lower-cased token, main.rs:121). -/
theorem claim_C5 (cfg : FastaCfg) (records : List FastaRecord)
    (pre post : List (String × String)) (id cell : String) (e : List Char)
    (hpre : ∃ m0, load_orientation_map pre = .ok m0)
    (hrow : parseOriField id (trimList cell.toList) = .error e) :
    load_orientation_map (pre ++ (id, cell) :: post) = .error e
    ∧ runFasta cfg (pre ++ (id, cell) :: post) records = .error e
    ∧ (trimList cell.toList ≠ [] →
        (trimList cell.toList).map toAsciiLower <:+: e) := by
  have hload := load_append_error pre post id cell e hpre hrow
  refine ⟨hload, ?_, ?_⟩
  · rw [runFasta, hload]
  · intro hne
    cases ht : trimList cell.toList with
    | nil => exact absurd ht hne
    | cons c rest =>
      rw [ht] at hrow
      simp only [parseOriField] at hrow
      split_ifs at hrow
      injection hrow with he
      rw [← he]
      exact ⟨"Unrecognized orientation value \x27".toList,
        "\x27 for read \x27".toList ++ id.toList ++ "\x27".toList,
        by simp [unrecognizedMsg, List.append_assoc]⟩

theorem claim_C5_witness :
    load_orientation_map [("a", "+"), ("r1", "wut")]
        = .error (unrecognizedMsg "wut".toList "r1")
    ∧ runFasta ⟨'+', false, ""⟩ [("a", "+"), ("r1", "wut")] [⟨"x", "", ['A']⟩]
        = .error (unrecognizedMsg "wut".toList "r1")
    ∧ "wut".toList <:+: unrecognizedMsg "wut".toList "r1" := by
  have h := claim_C5 ⟨'+', false, ""⟩ [⟨"x", "", ['A']⟩] [("a", "+")] []
    "r1" "wut" (unrecognizedMsg "wut".toList "r1")
    ⟨[("a", '+')], by rfl⟩ (by rfl)
  have heq : (trimList "wut".toList).map toAsciiLower = "wut".toList := by decide
  exact ⟨h.1, h.2.1, heq ▸ h.2.2 (by decide)⟩

end Restrand
